import Mathlib

/-!
Verification development for the rosdep-resolve-with-fixed-version tool
(source: rosdep_resolve_with_fixed_version.py).  The pipeline parses the
line-oriented output of the external resolver, extracts fixed-version
constraints from a package manifest, merges the two, and emits apt and pip
package lists.  Side effects (printing, file writing, subprocess calls) are
modelled by pure values: the emitted file content is the returned string,
and a raised RuntimeError is an `Except.error` carrying the message.
-/

namespace Rosdep

/-- Mirrors the Python class `RosdepResolvedPackageInfo` (one per dependency
key; `target_versions` starts empty in `__init__`). -/
structure RosdepResolvedPackageInfo where
  ros_pkg_name : String
  method : String
  resolved_names : List String
  target_versions : List String
  deriving Repr, DecidableEq

/-- Leftmost-occurrence search: the characters of `l` that follow the first
occurrence of `pat` as a contiguous sublist, or `none` when `pat` does not
occur. -/
def charsAfterFirst (pat : List Char) : List Char → Option (List Char)
  | [] => none
  | c :: rest =>
    if pat.isPrefixOf (c :: rest) then some (List.drop pat.length (c :: rest))
    else charsAfterFirst pat rest

/-- Characters strictly before the first closing bracket, or `none` when
there is no closing bracket. -/
def takeUntilRBracket : List Char → Option (List Char)
  | [] => none
  | c :: rest =>
    if c = ']' then some []
    else Option.map (fun l => c :: l) (takeUntilRBracket rest)

/-- Mirrors `re.search` of the pattern `#ROSDEP\[(.*?)\]` on one line: the
group is the text between the first occurrence of the literal marker
`#ROSDEP[` and the first `]` after it (the non-greedy group matches
minimally, and if no `]` follows the first marker occurrence none follows a
later occurrence either, so the whole search fails exactly then). -/
def rosdepHeadMatch (line : String) : Option String :=
  match charsAfterFirst "#ROSDEP[".data line.data with
  | none => none
  | some rest =>
    match takeUntilRBracket rest with
    | none => none
    | some cs => some (String.mk cs)

/-- Scan for the leftmost position where `#apt` or `#pip` starts; at one
position the alternation can only match one of the two. -/
def methodSearch : List Char → Option String
  | [] => none
  | c :: rest =>
    if "#apt".data.isPrefixOf (c :: rest) then some "apt"
    else if "#pip".data.isPrefixOf (c :: rest) then some "pip"
    else methodSearch rest

/-- Mirrors `re.search` of the pattern `#(apt|pip)` on one line, returning
the captured group. -/
def methodMatch (line : String) : Option String := methodSearch line.data

/-- Mirrors the Python `line.split(" ")`: split on every single space
character; adjacent separators and edge separators yield empty strings, and
no other character (tab included) separates. -/
def splitOnSpaceAux : List Char → List Char → List String
  | [], cur => [String.mk cur.reverse]
  | c :: rest, cur =>
    if c = ' ' then String.mk cur.reverse :: splitOnSpaceAux rest []
    else splitOnSpaceAux rest (c :: cur)

/-- `splitOnSpace s` is the Python `s.split(" ")`. -/
def splitOnSpace (s : String) : List String := splitOnSpaceAux s.data []

/-- One iteration of the `for line in lines` loop of `parse_rosdep`.  The
Python list `package_info_list` appends at the end and mutates the element
at index -1; here the list is kept most-recent-first (the head is the
Python last element) and is reversed before the dict conversion. -/
def parseStep (acc : List RosdepResolvedPackageInfo) (line : String) :
    Except String (List RosdepResolvedPackageInfo) :=
  match rosdepHeadMatch line with
  | some key =>
    .ok ({ ros_pkg_name := key, method := "", resolved_names := [],
           target_versions := [] } :: acc)
  | none =>
    match methodMatch line with
    | some g =>
      match acc with
      | [] => .error "Error: Method found before package name in rosdep result"
      | p :: rest => .ok ({ p with method := g } :: rest)
    | none =>
      match acc with
      | [] => .error "Error: resolved package name found before package name in rosdep result"
      | p :: rest => .ok ({ p with resolved_names := splitOnSpace line } :: rest)

/-- The whole `for line in lines` loop of `parse_rosdep`. -/
def parseLines : List String → List RosdepResolvedPackageInfo →
    Except String (List RosdepResolvedPackageInfo)
  | [], acc => .ok acc
  | line :: rest, acc =>
    match parseStep acc line with
    | .error e => .error e
    | .ok acc2 => parseLines rest acc2

/-- Insert into a Python dict modelled as an association list in insertion
order: an existing binding for the key is replaced in place, a new key is
appended at the end. -/
def dictInsert (d : List (String × RosdepResolvedPackageInfo)) (k : String)
    (v : RosdepResolvedPackageInfo) : List (String × RosdepResolvedPackageInfo) :=
  match d with
  | [] => [(k, v)]
  | (k', v') :: rest =>
    if k' = k then (k, v) :: rest else (k', v') :: dictInsert rest k v

/-- Mirrors the dict comprehension
`{package.ros_pkg_name: package for package in package_info_list}`:
on a repeated key the later value wins. -/
def toDict (ps : List RosdepResolvedPackageInfo) :
    List (String × RosdepResolvedPackageInfo) :=
  ps.foldl (fun d p => dictInsert d p.ros_pkg_name p) []

/-- Insert a pair into a key-sorted association list, keeping ascending key
order. -/
def sortedInsert (p : String × RosdepResolvedPackageInfo) :
    List (String × RosdepResolvedPackageInfo) →
    List (String × RosdepResolvedPackageInfo)
  | [] => [p]
  | q :: rest => if p.1 < q.1 then p :: q :: rest else q :: sortedInsert p rest

/-- Mirrors `dict(sorted(package_info_dict.items()))`: the items, whose keys
are distinct, re-ordered into ascending key order (Python compares the
pairs, which on distinct keys is comparison of the keys). -/
def sortDict (d : List (String × RosdepResolvedPackageInfo)) :
    List (String × RosdepResolvedPackageInfo) :=
  d.foldr sortedInsert []

/-- The Python `parse_rosdep(lines)`.  The result dict is an association
list in its iteration order. -/
def parse_rosdep (lines : List String) :
    Except String (List (String × RosdepResolvedPackageInfo)) :=
  match parseLines lines [] with
  | .error e => .error e
  | .ok acc => .ok (sortDict (toDict acc.reverse))

/-- The keys carried by the header lines of the input, in input order. -/
def headerKeys (lines : List String) : List String :=
  lines.filterMap rosdepHeadMatch

/-- Final method of a block of non-header lines, starting from `m`: each
method line overwrites the previous value (spec-side description used to
characterise the parser). -/
def blockMethod : List String → String → String
  | [], m => m
  | l :: ls, m =>
    match methodMatch l with
    | some g => blockMethod ls g
    | none => blockMethod ls m

/-- Final resolved names of a block of non-header lines, starting from `ns`:
each names line overwrites the previous value (spec-side description used
to characterise the parser). -/
def blockNames : List String → List String → List String
  | [], ns => ns
  | l :: ls, ns =>
    match methodMatch l with
    | some _ => blockNames ls ns
    | none => blockNames ls (splitOnSpace l)

/-- Text written for one package in the apt output file (per-iteration body
of the `--output-apt` loop; the `print` before the raise is a side effect
and is dropped). -/
def aptPackageText (p : RosdepResolvedPackageInfo) : Except String String :=
  match p.target_versions with
  | [] => .ok (String.join (p.resolved_names.map (fun item => item ++ "\n")))
  | [v] => .ok (String.join (p.resolved_names.map (fun item => item ++ "=" ++ v ++ "\n")))
  | _ => .error ("Error: Multiple target versions found for apt package " ++ p.ros_pkg_name)

/-- Text written for one package in the pip output file.  The pin separator
is `==`; the error message in the source says `apt package` here as well. -/
def pipPackageText (p : RosdepResolvedPackageInfo) : Except String String :=
  match p.target_versions with
  | [] => .ok (String.join (p.resolved_names.map (fun item => item ++ "\n")))
  | [v] => .ok (String.join (p.resolved_names.map (fun item => item ++ "==" ++ v ++ "\n")))
  | _ => .error ("Error: Multiple target versions found for apt package " ++ p.ros_pkg_name)

/-- Content of the apt output file: the `--output-apt` loop over the mapping
in its iteration order, keeping only entries whose method is `apt`. -/
def output_apt : List (String × RosdepResolvedPackageInfo) → Except String String
  | [] => .ok ""
  | (_, p) :: rest =>
    if p.method = "apt" then
      match aptPackageText p with
      | .error e => .error e
      | .ok t =>
        match output_apt rest with
        | .error e => .error e
        | .ok r => .ok (t ++ r)
    else output_apt rest

/-- Content of the pip output file: the `--output-pip` loop. -/
def output_pip : List (String × RosdepResolvedPackageInfo) → Except String String
  | [] => .ok ""
  | (_, p) :: rest =>
    if p.method = "pip" then
      match pipPackageText p with
      | .error e => .error e
      | .ok t =>
        match output_pip rest with
        | .error e => .error e
        | .ok r => .ok (t ++ r)
    else output_pip rest

/-- One `<..._depend>` element of a manifest: its text and its XML attribute
dict, modelled as an association list. -/
structure XmlDep where
  text : String
  attrib : List (String × String)
  deriving Repr, DecidableEq

/-- The inner body of `extract_fixed_version_depend_from_package_xml` for
one element: the loop over `unsupported_version_attributes` only prints a
warning and is dropped; the loop over `supported_version_attributes` runs
over the single attribute `version_eq`. -/
def extractFromDeps (path : String) : List XmlDep → List (String × String) →
    Except String (List (String × String))
  | [], deps => .ok deps
  | d :: rest, deps =>
    match List.lookup "version_eq" d.attrib with
    | none => extractFromDeps path rest deps
    | some v =>
      match List.lookup d.text deps with
      | some vOld =>
        .error ("ERROR: Duplicated dependency version found (" ++ vOld ++ " and "
          ++ v ++ "): " ++ d.text ++ " in package " ++ path)
      | none => extractFromDeps path rest (deps ++ [(d.text, v)])

/-- The Python `extract_fixed_version_depend_from_package_xml(path)`.  The
XML library is out of scope: `deps` stands for the elements returned by
`root.findall(tag)` concatenated over the eight entries of
`dependency_tags`, in scan order; `dependencies` is the returned dict as an
association list in insertion order. -/
def extract_fixed_version_depend_from_package_xml (path : String)
    (deps : List XmlDep) : Except String (List (String × String)) :=
  extractFromDeps path deps []

/-- Mirrors the Python `key in resolved_package_list.keys()`. -/
def hasKey (m : List (String × RosdepResolvedPackageInfo)) (k : String) : Bool :=
  m.any (fun q => q.1 = k)

/-- Mirrors `resolved_package_list[key].target_versions.append(value)` on a
dict with distinct keys: the binding of `k` gets `v` appended to its
`target_versions`, everything else is untouched. -/
def appendVersionAt : List (String × RosdepResolvedPackageInfo) → String → String →
    List (String × RosdepResolvedPackageInfo)
  | [], _, _ => []
  | (k', p) :: rest, k, v =>
    if k' = k then (k', { p with target_versions := p.target_versions ++ [v] }) :: rest
    else (k', p) :: appendVersionAt rest k v

/-- One iteration of the merge loop of `main`: skip when the key is absent
from the resolved mapping, otherwise append the version. -/
def mergeFixedVersion (m : List (String × RosdepResolvedPackageInfo))
    (k v : String) : List (String × RosdepResolvedPackageInfo) :=
  if hasKey m k then appendVersionAt m k v else m

/-- The whole merge loop `for key, value in fixed_version_depends.items()`. -/
def mergeFixedVersions (m : List (String × RosdepResolvedPackageInfo))
    (fixed : List (String × String)) : List (String × RosdepResolvedPackageInfo) :=
  fixed.foldl (fun acc kv => mergeFixedVersion acc kv.1 kv.2) m

/-- The `choices` of the `--dependency-types` option (the Python source
builds it as `list({...})` of a seven-element set; only membership
matters). -/
def dependencyTypesChoices : List String :=
  ["build", "buildtool", "build_export", "buildtool_export", "exec", "test", "doc"]

/-- Option handling of one `--dependency-types VALUE` occurrence: optparse
gives the option type `choice` (because `choices` is supplied and no type
is), so `check_choice` validates the raw value against the choices before
the `append` action stores it; an invalid choice is a fatal option error. -/
def checkDependencyTypes : List String → List String → Except String (List String)
  | [], acc => .ok acc
  | v :: rest, acc =>
    if v ∈ dependencyTypesChoices then checkDependencyTypes rest (acc ++ [v])
    else .error ("option --dependency-types: invalid choice: " ++ v)

/-- End-to-end handling of the `--dependency-types` values in `main`:
optparse validation of each raw value first, then the post-parse list
comprehension `[dep for s in options.dependency_types for dep in s.split(" ")]`. -/
def parseDependencyTypesOption (values : List String) : Except String (List String) :=
  match checkDependencyTypes values [] with
  | .error e => .error e
  | .ok raw => .ok (List.flatten (raw.map splitOnSpace))

/-! ### Lemmas about the parser loop -/

theorem parseStep_ok_of_ne_nil (acc : List RosdepResolvedPackageInfo) (line : String)
    (h : acc ≠ []) : ∃ acc2, parseStep acc line = .ok acc2 ∧ acc2 ≠ [] := by
  unfold parseStep
  cases rosdepHeadMatch line with
  | some key => exact ⟨_, rfl, by simp⟩
  | none =>
    cases methodMatch line with
    | some g =>
      cases acc with
      | nil => exact absurd rfl h
      | cons p rest => exact ⟨_, rfl, by simp⟩
    | none =>
      cases acc with
      | nil => exact absurd rfl h
      | cons p rest => exact ⟨_, rfl, by simp⟩

theorem parseLines_ok (lines : List String) :
    ∀ acc, acc ≠ [] → ∃ r, parseLines lines acc = .ok r ∧ r ≠ [] := by
  induction lines with
  | nil => intro acc h; exact ⟨acc, rfl, h⟩
  | cons line rest ih =>
    intro acc h
    obtain ⟨acc2, hstep, hne⟩ := parseStep_ok_of_ne_nil acc line h
    obtain ⟨r, hr, hrne⟩ := ih acc2 hne
    exact ⟨r, by simp [parseLines, hstep, hr], hrne⟩

theorem parseLines_names (lines : List String) :
    ∀ acc r, parseLines lines acc = .ok r →
      r.map (fun p => p.ros_pkg_name) =
        (headerKeys lines).reverse ++ acc.map (fun p => p.ros_pkg_name) := by
  induction lines with
  | nil =>
    intro acc r h
    simp only [parseLines] at h
    cases h
    simp [headerKeys]
  | cons line rest ih =>
    intro acc r h
    simp only [parseLines] at h
    cases hstep : parseStep acc line with
    | error e => rw [hstep] at h; cases h
    | ok acc2 =>
      rw [hstep] at h
      have ihr := ih acc2 r h
      unfold parseStep at hstep
      cases hhead : rosdepHeadMatch line with
      | some key =>
        rw [hhead] at hstep
        cases hstep
        simp only [headerKeys, List.filterMap_cons, hhead] at ihr ⊢
        simp only [List.map_cons] at ihr
        rw [ihr]
        simp
      | none =>
        rw [hhead] at hstep
        have hkeys : headerKeys (line :: rest) = headerKeys rest := by
          simp [headerKeys, List.filterMap_cons, hhead]
        cases hmeth : methodMatch line with
        | some g =>
          rw [hmeth] at hstep
          cases acc with
          | nil => cases hstep
          | cons p tail =>
            cases hstep
            simp only [List.map_cons] at ihr
            rw [hkeys, ihr]
            simp
        | none =>
          rw [hmeth] at hstep
          cases acc with
          | nil => cases hstep
          | cons p tail =>
            cases hstep
            simp only [List.map_cons] at ihr
            rw [hkeys, ihr]
            simp

/-! ### Lemmas about the dict conversion and the sort -/

theorem mem_dictInsert_keys (d : List (String × RosdepResolvedPackageInfo))
    (k : String) (v : RosdepResolvedPackageInfo) (a : String) :
    a ∈ (dictInsert d k v).map Prod.fst ↔ a = k ∨ a ∈ d.map Prod.fst := by
  induction d with
  | nil => simp [dictInsert]
  | cons q rest ih =>
    obtain ⟨k', v'⟩ := q
    by_cases hk : k' = k
    · subst hk
      simp [dictInsert]
    · simp only [dictInsert, if_neg hk, List.map_cons, List.mem_cons, ih]
      tauto

theorem nodup_dictInsert_keys (d : List (String × RosdepResolvedPackageInfo))
    (k : String) (v : RosdepResolvedPackageInfo)
    (h : (d.map Prod.fst).Nodup) : ((dictInsert d k v).map Prod.fst).Nodup := by
  induction d with
  | nil => simp [dictInsert]
  | cons q rest ih =>
    obtain ⟨k', v'⟩ := q
    simp only [List.map_cons, List.nodup_cons] at h
    by_cases hk : k' = k
    · subst hk
      simpa [dictInsert] using h
    · simp only [dictInsert, if_neg hk, List.map_cons, List.nodup_cons]
      refine ⟨fun hmem => ?_, ih h.2⟩
      rcases (mem_dictInsert_keys rest k v k').mp hmem with h1 | h1
      · exact hk h1
      · exact h.1 h1

theorem mem_toDictFold_keys (ps : List RosdepResolvedPackageInfo) :
    ∀ (d : List (String × RosdepResolvedPackageInfo)) (a : String),
      a ∈ ((ps.foldl (fun d p => dictInsert d p.ros_pkg_name p) d).map Prod.fst) ↔
        a ∈ d.map Prod.fst ∨ a ∈ ps.map (fun p => p.ros_pkg_name) := by
  induction ps with
  | nil => simp
  | cons p rest ih =>
    intro d a
    simp only [List.foldl_cons, List.map_cons, List.mem_cons]
    rw [ih, mem_dictInsert_keys]
    tauto

theorem nodup_toDictFold_keys (ps : List RosdepResolvedPackageInfo) :
    ∀ (d : List (String × RosdepResolvedPackageInfo)),
      (d.map Prod.fst).Nodup →
      ((ps.foldl (fun d p => dictInsert d p.ros_pkg_name p) d).map Prod.fst).Nodup := by
  induction ps with
  | nil => simp
  | cons p rest ih =>
    intro d h
    exact ih _ (nodup_dictInsert_keys d p.ros_pkg_name p h)

theorem mem_toDict_keys (ps : List RosdepResolvedPackageInfo) (a : String) :
    a ∈ (toDict ps).map Prod.fst ↔ a ∈ ps.map (fun p => p.ros_pkg_name) := by
  rw [toDict, mem_toDictFold_keys]
  simp

theorem nodup_toDict_keys (ps : List RosdepResolvedPackageInfo) :
    ((toDict ps).map Prod.fst).Nodup :=
  nodup_toDictFold_keys ps [] (by simp)

theorem mem_sortedInsert_keys (p : String × RosdepResolvedPackageInfo)
    (l : List (String × RosdepResolvedPackageInfo)) (a : String) :
    a ∈ (sortedInsert p l).map Prod.fst ↔ a = p.1 ∨ a ∈ l.map Prod.fst := by
  induction l with
  | nil => simp [sortedInsert]
  | cons q rest ih =>
    rw [sortedInsert]
    by_cases hlt : p.1 < q.1
    · rw [if_pos hlt]
      simp only [List.map_cons, List.mem_cons]
    · rw [if_neg hlt]
      simp only [List.map_cons, List.mem_cons, ih]
      tauto

theorem sortedInsert_pairwise (p : String × RosdepResolvedPackageInfo)
    (l : List (String × RosdepResolvedPackageInfo))
    (hl : l.Pairwise (fun a b => a.1 < b.1)) (hp : p.1 ∉ l.map Prod.fst) :
    (sortedInsert p l).Pairwise (fun a b => a.1 < b.1) := by
  induction l with
  | nil => simp [sortedInsert]
  | cons q rest ih =>
    simp only [List.map_cons, List.mem_cons] at hp
    push_neg at hp
    obtain ⟨hpq, hprest⟩ := hp
    simp only [List.pairwise_cons] at hl
    obtain ⟨hq, hrest⟩ := hl
    by_cases hlt : p.1 < q.1
    · rw [sortedInsert, if_pos hlt]
      refine List.Pairwise.cons ?_ (List.Pairwise.cons hq hrest)
      intro b hb
      rcases List.mem_cons.mp hb with hb | hb
      · exact hb ▸ hlt
      · exact lt_trans hlt (hq b hb)
    · rw [sortedInsert, if_neg hlt]
      have hqp : q.1 < p.1 := lt_of_le_of_ne (not_lt.mp hlt) (Ne.symm hpq)
      refine List.Pairwise.cons ?_ (ih hrest hprest)
      intro b hb
      rcases (mem_sortedInsert_keys p rest b.1).mp (List.mem_map_of_mem Prod.fst hb) with h1 | h1
      · exact h1 ▸ hqp
      · obtain ⟨c, hc, hcb⟩ := List.mem_map.mp h1
        exact hcb ▸ hq c hc

theorem mem_sortDict_keys (d : List (String × RosdepResolvedPackageInfo)) (a : String) :
    a ∈ (sortDict d).map Prod.fst ↔ a ∈ d.map Prod.fst := by
  induction d with
  | nil => simp [sortDict]
  | cons q rest ih =>
    simp only [sortDict, List.foldr_cons] at ih ⊢
    rw [mem_sortedInsert_keys]
    simp only [List.map_cons, List.mem_cons, ih]

theorem sortDict_pairwise (d : List (String × RosdepResolvedPackageInfo))
    (h : (d.map Prod.fst).Nodup) :
    (sortDict d).Pairwise (fun a b => a.1 < b.1) := by
  induction d with
  | nil => simp [sortDict]
  | cons q rest ih =>
    simp only [List.map_cons, List.nodup_cons] at h
    simp only [sortDict, List.foldr_cons]
    refine sortedInsert_pairwise q _ (ih h.2) ?_
    intro hmem
    rw [show (List.foldr sortedInsert [] rest) = sortDict rest from rfl,
      mem_sortDict_keys] at hmem
    exact h.1 hmem

/-- Any successful `parse_rosdep` result is in strictly ascending key
order. -/
theorem parse_rosdep_pairwise (lines : List String)
    (m : List (String × RosdepResolvedPackageInfo))
    (h : parse_rosdep lines = .ok m) : m.Pairwise (fun a b => a.1 < b.1) := by
  unfold parse_rosdep at h
  cases hp : parseLines lines [] with
  | error e => rw [hp] at h; cases h
  | ok acc =>
    rw [hp] at h
    cases h
    exact sortDict_pairwise _ (nodup_toDict_keys _)

/-! ### Characterisation of the single-space split -/

/-- Spec-side inverse of the split: join the pieces with one space between
consecutive pieces. -/
def joinWithSpace : List String → String
  | [] => ""
  | [s] => s
  | s :: rest => s ++ " " ++ joinWithSpace rest

theorem splitOnSpaceAux_ne_nil : ∀ (cs cur : List Char), splitOnSpaceAux cs cur ≠ [] := by
  intro cs
  induction cs with
  | nil => intro cur; simp [splitOnSpaceAux]
  | cons c rest ih =>
    intro cur
    rw [splitOnSpaceAux]
    by_cases hc : c = ' '
    · rw [if_pos hc]; simp
    · rw [if_neg hc]; exact ih (c :: cur)

theorem joinWithSpace_cons (s : String) (l : List String) (h : l ≠ []) :
    joinWithSpace (s :: l) = s ++ " " ++ joinWithSpace l := by
  cases l with
  | nil => exact absurd rfl h
  | cons t r => rfl

theorem mk_append_mk (a b : List Char) :
    String.mk a ++ String.mk b = String.mk (a ++ b) := rfl

theorem joinWithSpace_splitOnSpaceAux :
    ∀ (cs cur : List Char),
      joinWithSpace (splitOnSpaceAux cs cur) = String.mk (cur.reverse ++ cs) := by
  intro cs
  induction cs with
  | nil => intro cur; simp [splitOnSpaceAux, joinWithSpace]
  | cons c rest ih =>
    intro cur
    rw [splitOnSpaceAux]
    by_cases hc : c = ' '
    · rw [if_pos hc]
      rw [joinWithSpace_cons _ _ (splitOnSpaceAux_ne_nil rest []), ih []]
      subst hc
      show String.mk cur.reverse ++ String.mk [' '] ++ String.mk rest = _
      rw [mk_append_mk, mk_append_mk]
      simp
    · rw [if_neg hc, ih (c :: cur)]
      simp

theorem splitOnSpaceAux_no_space :
    ∀ (cs cur : List Char), (∀ c ∈ cur, c ≠ ' ') →
      ∀ s ∈ splitOnSpaceAux cs cur, ' ' ∉ s.data := by
  intro cs
  induction cs with
  | nil =>
    intro cur hcur s hs
    simp only [splitOnSpaceAux, List.mem_singleton] at hs
    subst hs
    intro hmem
    exact hcur ' ' (by simpa using hmem) rfl
  | cons c rest ih =>
    intro cur hcur s hs
    rw [splitOnSpaceAux] at hs
    by_cases hc : c = ' '
    · rw [if_pos hc] at hs
      rcases List.mem_cons.mp hs with hs | hs
      · subst hs
        intro hmem
        exact hcur ' ' (by simpa using hmem) rfl
      · exact ih [] (by simp) s hs
    · rw [if_neg hc] at hs
      refine ih (c :: cur) ?_ s hs
      intro d hd
      rcases List.mem_cons.mp hd with hd | hd
      · exact hd ▸ hc
      · exact hcur d hd

/-- The split of a line is exactly the list of space-free pieces whose
single-space join is the line. -/
theorem splitOnSpace_spec (s : String) :
    joinWithSpace (splitOnSpace s) = s ∧ ∀ t ∈ splitOnSpace s, ' ' ∉ t.data := by
  constructor
  · rw [splitOnSpace, joinWithSpace_splitOnSpaceAux]
    rfl
  · exact splitOnSpaceAux_no_space s.data [] (by simp)

/-! ### Frame and block lemmas for the parser -/

/-- Entries below the top segment of the parse state are never read or
modified: processing any line sequence on `front ++ rest` (with `front`
nonempty, so the Python index -1 never reaches into `rest`) is processing
it on `front` with `rest` carried along unchanged. -/
theorem parseLines_frame (lines : List String) :
    ∀ (front rest : List RosdepResolvedPackageInfo), front ≠ [] →
      parseLines lines (front ++ rest) =
        Except.map (fun l => l ++ rest) (parseLines lines front) := by
  induction lines with
  | nil => intro front rest _; rfl
  | cons line ls ih =>
    intro front rest hne
    rw [parseLines, parseLines]
    cases hhead : rosdepHeadMatch line with
    | some key =>
      have h1 : parseStep (front ++ rest) line =
          .ok ((⟨key, "", [], []⟩ : RosdepResolvedPackageInfo) :: front ++ rest) := by
        simp [parseStep, hhead]
      have h2 : parseStep front line =
          .ok ((⟨key, "", [], []⟩ : RosdepResolvedPackageInfo) :: front) := by
        simp [parseStep, hhead]
      rw [h1, h2]
      exact ih (⟨key, "", [], []⟩ :: front) rest (by simp)
    | none =>
      cases front with
      | nil => exact absurd rfl hne
      | cons p front2 =>
        cases hmeth : methodMatch line with
        | some g =>
          have h1 : parseStep ((p :: front2) ++ rest) line =
              .ok ({ p with method := g } :: (front2 ++ rest)) := by
            unfold parseStep; rw [hhead, hmeth]; rfl
          have h2 : parseStep (p :: front2) line =
              .ok ({ p with method := g } :: front2) := by
            unfold parseStep; rw [hhead, hmeth]
          rw [h1, h2]
          exact ih ({ p with method := g } :: front2) rest (by simp)
        | none =>
          have h1 : parseStep ((p :: front2) ++ rest) line =
              .ok ({ p with resolved_names := splitOnSpace line } :: (front2 ++ rest)) := by
            unfold parseStep; rw [hhead, hmeth]; rfl
          have h2 : parseStep (p :: front2) line =
              .ok ({ p with resolved_names := splitOnSpace line } :: front2) := by
            unfold parseStep; rw [hhead, hmeth]
          rw [h1, h2]
          exact ih ({ p with resolved_names := splitOnSpace line } :: front2) rest (by simp)

/-- On a block free of header lines, the single current entry ends with the
method of the last method line (each one overwriting the previous) and the
names of the last names line. -/
theorem parseLines_block (block : List String) :
    ∀ p : RosdepResolvedPackageInfo, (∀ l ∈ block, rosdepHeadMatch l = none) →
      parseLines block [p] = .ok [{ p with method := blockMethod block p.method, resolved_names := blockNames block p.resolved_names }] := by
  induction block with
  | nil => intro p _; simp [parseLines, blockMethod, blockNames]
  | cons l ls ih =>
    intro p hnh
    have hhead : rosdepHeadMatch l = none := hnh l (by simp)
    cases hmeth : methodMatch l with
    | some g =>
      have h1 : parseStep [p] l = .ok [{ p with method := g }] := by
        unfold parseStep; rw [hhead, hmeth]
      have h2 : parseLines (l :: ls) [p] = parseLines ls [{ p with method := g }] := by
        rw [parseLines, h1]
      rw [h2, ih { p with method := g } (fun x hx => hnh x (by simp [hx]))]
      simp [blockMethod, blockNames, hmeth]
    | none =>
      have h1 : parseStep [p] l = .ok [{ p with resolved_names := splitOnSpace l }] := by
        unfold parseStep; rw [hhead, hmeth]
      have h2 : parseLines (l :: ls) [p] =
          parseLines ls [{ p with resolved_names := splitOnSpace l }] := by
        rw [parseLines, h1]
      rw [h2, ih { p with resolved_names := splitOnSpace l }
        (fun x hx => hnh x (by simp [hx]))]
      simp [blockMethod, blockNames, hmeth]

theorem blockMethod_no_marker :
    ∀ (block : List String) (m0 : String),
      (∀ l ∈ block, methodMatch l = none) → blockMethod block m0 = m0 := by
  intro block
  induction block with
  | nil => intro m0 _; rfl
  | cons l ls ih =>
    intro m0 h
    rw [blockMethod, h l (by simp)]
    exact ih m0 (fun x hx => h x (by simp [hx]))

/-! ### Claim theorems -/

/-- Claim C1: for every well-formed resolver-output line sequence (every
method or names line has a header line strictly before it), `parse_rosdep`
returns a mapping whose key set equals the set of distinct keys appearing
in the `#ROSDEP[...]` header lines of the input, and whose entries are in
strictly ascending (lexicographic) key order. -/
theorem parse_rosdep_wellformed_keys_sorted (lines : List String)
    (hwf : ∀ i (hi : i < lines.length), rosdepHeadMatch (lines.get ⟨i, hi⟩) = none →
      ∃ j, j < i ∧ (rosdepHeadMatch lines[j]!).isSome) :
    ∃ m, parse_rosdep lines = .ok m ∧
      (∀ k, k ∈ m.map Prod.fst ↔ k ∈ headerKeys lines) ∧
      m.Pairwise (fun a b => a.1 < b.1) := by
  cases lines with
  | nil =>
    refine ⟨[], rfl, ?_, ?_⟩
    · simp [headerKeys]
    · simp
  | cons l rest =>
    have hhead : (rosdepHeadMatch l).isSome := by
      by_contra hcon
      have hnone : rosdepHeadMatch l = none := by
        cases h : rosdepHeadMatch l with
        | none => rfl
        | some k => rw [h] at hcon; simp at hcon
      obtain ⟨j, hji, _⟩ := hwf 0 (by simp) hnone
      omega
    obtain ⟨key, hkey⟩ := Option.isSome_iff_exists.mp hhead
    have hstep : parseStep [] l = .ok [⟨key, "", [], []⟩] := by
      unfold parseStep; rw [hkey]
    obtain ⟨r, hr, hrne⟩ := parseLines_ok rest [⟨key, "", [], []⟩] (by simp)
    have hparse : parseLines (l :: rest) [] = .ok r := by
      have h2 : parseLines (l :: rest) [] = parseLines rest [⟨key, "", [], []⟩] := by
        rw [parseLines, hstep]
      rw [h2, hr]
    have hnames := parseLines_names (l :: rest) [] r hparse
    simp only [List.map_nil, List.append_nil] at hnames
    refine ⟨sortDict (toDict r.reverse), ?_, ?_, ?_⟩
    · unfold parse_rosdep; rw [hparse]
    · intro k
      rw [mem_sortDict_keys, mem_toDict_keys, List.map_reverse, hnames]
      simp
    · exact sortDict_pairwise _ (nodup_toDict_keys _)

theorem parse_rosdep_wellformed_keys_sorted_witness :
    ∃ m, parse_rosdep ["#ROSDEP[b]", "#apt", "x y", "#ROSDEP[a]"] = .ok m ∧
      (∀ k, k ∈ m.map Prod.fst ↔
        k ∈ headerKeys ["#ROSDEP[b]", "#apt", "x y", "#ROSDEP[a]"]) ∧
      m.Pairwise (fun a b => a.1 < b.1) :=
  parse_rosdep_wellformed_keys_sorted ["#ROSDEP[b]", "#apt", "x y", "#ROSDEP[a]"]
    (by decide)

/-- Claim C2: a method line or a names line occurring before any header
line (equivalently: a first line that is not a header line) makes
`parse_rosdep` fail with the corresponding structural error instead of
returning a mapping. -/
theorem parse_rosdep_error_before_header (l : String) (rest : List String)
    (h : rosdepHeadMatch l = none) :
    parse_rosdep (l :: rest) = .error (match methodMatch l with
      | some _ => "Error: Method found before package name in rosdep result"
      | none => "Error: resolved package name found before package name in rosdep result") := by
  have hstep : parseStep [] l = .error (match methodMatch l with
      | some _ => "Error: Method found before package name in rosdep result"
      | none => "Error: resolved package name found before package name in rosdep result") := by
    unfold parseStep
    rw [h]
    cases methodMatch l <;> rfl
  unfold parse_rosdep
  rw [parseLines, hstep]

theorem parse_rosdep_error_before_header_witness :
    parse_rosdep ["#apt"] = .error "Error: Method found before package name in rosdep result" ∧
    parse_rosdep ["libfoo libbar"] =
      .error "Error: resolved package name found before package name in rosdep result" :=
  ⟨parse_rosdep_error_before_header "#apt" [] rfl,
   parse_rosdep_error_before_header "libfoo libbar" [] rfl⟩

/-- Claim C3 counterexample: the names line is split on single space
characters, so a run of two spaces produces an empty-string name — contrary
to the claim that empty-string names never arise. -/
theorem parse_names_empty_string_counterexample :
    ∃ p, parse_rosdep ["#ROSDEP[foo]", "a  b"] = .ok [("foo", p)] ∧
      "" ∈ p.resolved_names :=
  ⟨⟨"foo", "", ["a", "", "b"], []⟩, rfl, by simp⟩

/-- Claim C3 (amended): a line that is neither a header nor a method line is
split on every single space character into the `resolved_names` of the most
recently started entry, overwriting any previous value; the pieces are
exactly the space-free segments whose single-space join is the line — in
particular a run of several spaces yields empty-string names, and a tab is
not a separator. -/
theorem parse_names_line_split_on_single_space
    (line : String) (p : RosdepResolvedPackageInfo)
    (rest : List RosdepResolvedPackageInfo)
    (hh : rosdepHeadMatch line = none) (hm : methodMatch line = none) :
    parseStep (p :: rest) line =
      .ok ({ p with resolved_names := splitOnSpace line } :: rest) ∧
    joinWithSpace (splitOnSpace line) = line ∧
    ∀ t ∈ splitOnSpace line, ' ' ∉ t.data := by
  refine ⟨?_, (splitOnSpace_spec line).1, (splitOnSpace_spec line).2⟩
  unfold parseStep
  rw [hh, hm]

theorem parse_names_line_split_on_single_space_witness :
    parseStep [(⟨"k", "apt", ["x"], []⟩ : RosdepResolvedPackageInfo)] "a  b" =
      .ok [⟨"k", "apt", ["a", "", "b"], []⟩] ∧
    joinWithSpace ["a", "", "b"] = "a  b" := by
  have h := parse_names_line_split_on_single_space "a  b" ⟨"k", "apt", ["x"], []⟩ [] rfl rfl
  exact ⟨h.1, h.2.1⟩

/-- Claim C9 counterexample: after `#apt` has set the method of the entry
for key `a`, the later input line `#pip` changes that method again, so the
method field is not set at most once. -/
theorem method_overwritten_counterexample :
    parse_rosdep ["#ROSDEP[a]", "#apt"] = .ok [("a", ⟨"a", "apt", [], []⟩)] ∧
    parse_rosdep ["#ROSDEP[a]", "#apt", "#pip"] = .ok [("a", ⟨"a", "pip", [], []⟩)] :=
  ⟨rfl, rfl⟩

/-- Claim C9 (amended): a method line sets the method of the most recently
started entry, overwriting any previously set value, so the final method of
an entry is the group of the last method line of its block and stays unset
(empty) when the block has no recognised method marker; entries other than
the most recent one are never modified by later lines. -/
theorem method_last_marker_wins :
    (∀ (lines : List String) (front rest : List RosdepResolvedPackageInfo),
      front ≠ [] → parseLines lines (front ++ rest) =
        Except.map (fun l => l ++ rest) (parseLines lines front)) ∧
    (∀ (block : List String) (p : RosdepResolvedPackageInfo),
      (∀ l ∈ block, rosdepHeadMatch l = none) →
      parseLines block [p] = .ok [{ p with method := blockMethod block p.method, resolved_names := blockNames block p.resolved_names }]) ∧
    (∀ (block : List String) (m0 : String),
      (∀ l ∈ block, methodMatch l = none) → blockMethod block m0 = m0) :=
  ⟨parseLines_frame, parseLines_block, blockMethod_no_marker⟩

theorem method_last_marker_wins_witness :
    parseLines ["#pip"]
        ([(⟨"b", "", [], []⟩ : RosdepResolvedPackageInfo)] ++ [⟨"a", "apt", [], []⟩]) =
      Except.map (fun l => l ++ [⟨"a", "apt", [], []⟩])
        (parseLines ["#pip"] [⟨"b", "", [], []⟩]) ∧
    parseLines ["#apt", "#pip"] [(⟨"a", "", [], []⟩ : RosdepResolvedPackageInfo)] =
      .ok [⟨"a", blockMethod ["#apt", "#pip"] "", blockNames ["#apt", "#pip"] [], []⟩] ∧
    blockMethod ["x y"] "apt" = "apt" :=
  ⟨method_last_marker_wins.1 ["#pip"] [⟨"b", "", [], []⟩] [⟨"a", "apt", [], []⟩] (by simp),
   method_last_marker_wins.2.1 ["#apt", "#pip"] ⟨"a", "", [], []⟩ (by decide),
   method_last_marker_wins.2.2 ["x y"] "apt" (by decide)⟩

/-- Claim C4: at emission an apt entry with no target version writes each
resolved name unpinned on its own line and with exactly one target version
writes each name suffixed with the apt pin `=<version>`; a pip entry
behaves identically with the pip pin `==<version>`; both loops walk the
mapping in its stored order, which for a parsed mapping is ascending key
order. -/
theorem emit_pin_syntax_and_order :
    (∀ (p : RosdepResolvedPackageInfo) (k : String)
       (rest : List (String × RosdepResolvedPackageInfo)) (r : String),
       p.method = "apt" → output_apt rest = .ok r →
       (p.target_versions = [] →
         output_apt ((k, p) :: rest) =
           .ok (String.join (p.resolved_names.map (fun item => item ++ "\n")) ++ r)) ∧
       (∀ v, p.target_versions = [v] →
         output_apt ((k, p) :: rest) =
           .ok (String.join (p.resolved_names.map (fun item => item ++ "=" ++ v ++ "\n")) ++ r))) ∧
    (∀ (p : RosdepResolvedPackageInfo) (k : String)
       (rest : List (String × RosdepResolvedPackageInfo)) (r : String),
       p.method = "pip" → output_pip rest = .ok r →
       (p.target_versions = [] →
         output_pip ((k, p) :: rest) =
           .ok (String.join (p.resolved_names.map (fun item => item ++ "\n")) ++ r)) ∧
       (∀ v, p.target_versions = [v] →
         output_pip ((k, p) :: rest) =
           .ok (String.join (p.resolved_names.map (fun item => item ++ "==" ++ v ++ "\n")) ++ r))) ∧
    (∀ (lines : List String) (m : List (String × RosdepResolvedPackageInfo)),
      parse_rosdep lines = .ok m → m.Pairwise (fun a b => a.1 < b.1)) := by
  refine ⟨?_, ?_, parse_rosdep_pairwise⟩
  · intro p k rest r hm hr
    constructor
    · intro hv
      simp [output_apt, aptPackageText, hm, hv, hr]
    · intro v hv
      simp [output_apt, aptPackageText, hm, hv, hr]
  · intro p k rest r hm hr
    constructor
    · intro hv
      simp [output_pip, pipPackageText, hm, hv, hr]
    · intro v hv
      simp [output_pip, pipPackageText, hm, hv, hr]

theorem emit_pin_syntax_and_order_witness :
    output_apt [("a", (⟨"a", "apt", ["x", "y"], []⟩ : RosdepResolvedPackageInfo))] =
      .ok "x\ny\n" ∧
    output_apt [("a", (⟨"a", "apt", ["x", "y"], ["1.0"]⟩ : RosdepResolvedPackageInfo))] =
      .ok "x=1.0\ny=1.0\n" ∧
    output_pip [("a", (⟨"a", "pip", ["x"], ["2.0"]⟩ : RosdepResolvedPackageInfo))] =
      .ok "x==2.0\n" := by
  refine ⟨?_, ?_, ?_⟩
  · exact (emit_pin_syntax_and_order.1 ⟨"a", "apt", ["x", "y"], []⟩ "a" [] "" rfl rfl).1 rfl
  · exact (emit_pin_syntax_and_order.1 ⟨"a", "apt", ["x", "y"], ["1.0"]⟩ "a" [] "" rfl rfl).2
      "1.0" rfl
  · exact (emit_pin_syntax_and_order.2.1 ⟨"a", "pip", ["x"], ["2.0"]⟩ "a" [] "" rfl rfl).2
      "2.0" rfl

theorem output_apt_error_of_multi :
    ∀ (m : List (String × RosdepResolvedPackageInfo)) (k : String)
      (p : RosdepResolvedPackageInfo),
      (k, p) ∈ m → p.method = "apt" → 2 ≤ p.target_versions.length →
      ∃ q : RosdepResolvedPackageInfo, (∃ k2, (k2, q) ∈ m) ∧ q.method = "apt" ∧
        2 ≤ q.target_versions.length ∧
        output_apt m =
          .error ("Error: Multiple target versions found for apt package " ++ q.ros_pkg_name) := by
  intro m
  induction m with
  | nil => intro k p hmem; simp at hmem
  | cons hd rest ih =>
    intro k p hmem hmeth hlen
    obtain ⟨k1, q1⟩ := hd
    by_cases hq : q1.method = "apt"
    · cases htv : q1.target_versions with
      | nil =>
        have hin : (k, p) ∈ rest := by
          rcases List.mem_cons.mp hmem with heq | hin
          · cases heq
            rw [htv] at hlen
            simp at hlen
          · exact hin
        obtain ⟨q, ⟨k2, hk2⟩, h1, h2, h3⟩ := ih k p hin hmeth hlen
        exact ⟨q, ⟨k2, List.mem_cons_of_mem _ hk2⟩, h1, h2,
          by simp [output_apt, hq, aptPackageText, htv, h3]⟩
      | cons v vs =>
        cases vs with
        | nil =>
          have hin : (k, p) ∈ rest := by
            rcases List.mem_cons.mp hmem with heq | hin
            · cases heq
              rw [htv] at hlen
              simp at hlen
            · exact hin
          obtain ⟨q, ⟨k2, hk2⟩, h1, h2, h3⟩ := ih k p hin hmeth hlen
          exact ⟨q, ⟨k2, List.mem_cons_of_mem _ hk2⟩, h1, h2,
            by simp [output_apt, hq, aptPackageText, htv, h3]⟩
        | cons v2 vs2 =>
          refine ⟨q1, ⟨k1, by simp⟩, hq, by simp [htv], ?_⟩
          simp [output_apt, hq, aptPackageText, htv]
    · have hin : (k, p) ∈ rest := by
        rcases List.mem_cons.mp hmem with heq | hin
        · cases heq; exact absurd hmeth hq
        · exact hin
      obtain ⟨q, ⟨k2, hk2⟩, h1, h2, h3⟩ := ih k p hin hmeth hlen
      exact ⟨q, ⟨k2, List.mem_cons_of_mem _ hk2⟩, h1, h2, by simp [output_apt, hq, h3]⟩

theorem output_pip_error_of_multi :
    ∀ (m : List (String × RosdepResolvedPackageInfo)) (k : String)
      (p : RosdepResolvedPackageInfo),
      (k, p) ∈ m → p.method = "pip" → 2 ≤ p.target_versions.length →
      ∃ q : RosdepResolvedPackageInfo, (∃ k2, (k2, q) ∈ m) ∧ q.method = "pip" ∧
        2 ≤ q.target_versions.length ∧
        output_pip m =
          .error ("Error: Multiple target versions found for apt package " ++ q.ros_pkg_name) := by
  intro m
  induction m with
  | nil => intro k p hmem; simp at hmem
  | cons hd rest ih =>
    intro k p hmem hmeth hlen
    obtain ⟨k1, q1⟩ := hd
    by_cases hq : q1.method = "pip"
    · cases htv : q1.target_versions with
      | nil =>
        have hin : (k, p) ∈ rest := by
          rcases List.mem_cons.mp hmem with heq | hin
          · cases heq
            rw [htv] at hlen
            simp at hlen
          · exact hin
        obtain ⟨q, ⟨k2, hk2⟩, h1, h2, h3⟩ := ih k p hin hmeth hlen
        exact ⟨q, ⟨k2, List.mem_cons_of_mem _ hk2⟩, h1, h2,
          by simp [output_pip, hq, pipPackageText, htv, h3]⟩
      | cons v vs =>
        cases vs with
        | nil =>
          have hin : (k, p) ∈ rest := by
            rcases List.mem_cons.mp hmem with heq | hin
            · cases heq
              rw [htv] at hlen
              simp at hlen
            · exact hin
          obtain ⟨q, ⟨k2, hk2⟩, h1, h2, h3⟩ := ih k p hin hmeth hlen
          exact ⟨q, ⟨k2, List.mem_cons_of_mem _ hk2⟩, h1, h2,
            by simp [output_pip, hq, pipPackageText, htv, h3]⟩
        | cons v2 vs2 =>
          refine ⟨q1, ⟨k1, by simp⟩, hq, by simp [htv], ?_⟩
          simp [output_pip, hq, pipPackageText, htv]
    · have hin : (k, p) ∈ rest := by
        rcases List.mem_cons.mp hmem with heq | hin
        · cases heq; exact absurd hmeth hq
        · exact hin
      obtain ⟨q, ⟨k2, hk2⟩, h1, h2, h3⟩ := ih k p hin hmeth hlen
      exact ⟨q, ⟨k2, List.mem_cons_of_mem _ hk2⟩, h1, h2, by simp [output_pip, hq, h3]⟩

/-- Claim C5: a mapping containing an apt (or pip) entry with two or more
target versions makes the corresponding emission fail with a multiple
target versions error naming an offending package, instead of returning
file content with one version silently picked.  (In the pip branch the
source reuses the words `apt package` in the message.) -/
theorem emit_multi_version_fatal
    (m : List (String × RosdepResolvedPackageInfo)) (k : String)
    (p : RosdepResolvedPackageInfo) (hmem : (k, p) ∈ m)
    (hlen : 2 ≤ p.target_versions.length) :
    (p.method = "apt" → ∃ q : RosdepResolvedPackageInfo, (∃ k2, (k2, q) ∈ m) ∧
      q.method = "apt" ∧ 2 ≤ q.target_versions.length ∧
      output_apt m =
        .error ("Error: Multiple target versions found for apt package " ++ q.ros_pkg_name)) ∧
    (p.method = "pip" → ∃ q : RosdepResolvedPackageInfo, (∃ k2, (k2, q) ∈ m) ∧
      q.method = "pip" ∧ 2 ≤ q.target_versions.length ∧
      output_pip m =
        .error ("Error: Multiple target versions found for apt package " ++ q.ros_pkg_name)) :=
  ⟨fun h => output_apt_error_of_multi m k p hmem h hlen,
   fun h => output_pip_error_of_multi m k p hmem h hlen⟩

theorem emit_multi_version_fatal_witness :
    ∃ q : RosdepResolvedPackageInfo,
      (∃ k2, (k2, q) ∈ [("a", (⟨"a", "apt", ["x"], ["1", "2"]⟩ : RosdepResolvedPackageInfo))]) ∧
      q.method = "apt" ∧ 2 ≤ q.target_versions.length ∧
      output_apt [("a", (⟨"a", "apt", ["x"], ["1", "2"]⟩ : RosdepResolvedPackageInfo))] =
        .error ("Error: Multiple target versions found for apt package " ++ q.ros_pkg_name) :=
  (emit_multi_version_fatal [("a", ⟨"a", "apt", ["x"], ["1", "2"]⟩)] "a"
    ⟨"a", "apt", ["x"], ["1", "2"]⟩ (by simp) (by simp)).1 rfl

/-- Claim C10: an entry whose method is neither apt nor pip contributes
nothing to either output file, whatever its resolved names and target
versions: removing it leaves both emitted outputs (content or error)
unchanged, so in particular it never raises an error. -/
theorem emit_skips_other_methods
    (l1 l2 : List (String × RosdepResolvedPackageInfo)) (k : String)
    (p : RosdepResolvedPackageInfo) (ha : p.method ≠ "apt") (hp : p.method ≠ "pip") :
    output_apt (l1 ++ (k, p) :: l2) = output_apt (l1 ++ l2) ∧
    output_pip (l1 ++ (k, p) :: l2) = output_pip (l1 ++ l2) := by
  induction l1 with
  | nil => simp [output_apt, output_pip, ha, hp]
  | cons hd rest ih =>
    obtain ⟨k1, q1⟩ := hd
    constructor
    · by_cases hq : q1.method = "apt"
      · simp [output_apt, hq, ih.1]
      · simp [output_apt, hq, ih.1]
    · by_cases hq : q1.method = "pip"
      · simp [output_pip, hq, ih.2]
      · simp [output_pip, hq, ih.2]

theorem emit_skips_other_methods_witness :
    output_apt ([("b", (⟨"b", "apt", ["y"], []⟩ : RosdepResolvedPackageInfo))] ++
        ("a", (⟨"a", "", ["x"], ["9"]⟩ : RosdepResolvedPackageInfo)) :: []) =
      output_apt ([("b", (⟨"b", "apt", ["y"], []⟩ : RosdepResolvedPackageInfo))] ++ []) ∧
    output_pip ([("b", (⟨"b", "apt", ["y"], []⟩ : RosdepResolvedPackageInfo))] ++
        ("a", (⟨"a", "", ["x"], ["9"]⟩ : RosdepResolvedPackageInfo)) :: []) =
      output_pip ([("b", (⟨"b", "apt", ["y"], []⟩ : RosdepResolvedPackageInfo))] ++ []) :=
  emit_skips_other_methods [("b", ⟨"b", "apt", ["y"], []⟩)] [] "a" ⟨"a", "", ["x"], ["9"]⟩
    (by decide) (by decide)

theorem appendVersionAt_decomp :
    ∀ (m : List (String × RosdepResolvedPackageInfo)) (k v : String),
      hasKey m k = true →
      ∃ l1 p l2, m = l1 ++ (k, p) :: l2 ∧ (∀ q ∈ l1, q.1 ≠ k) ∧
        appendVersionAt m k v =
          l1 ++ (k, { p with target_versions := p.target_versions ++ [v] }) :: l2 := by
  intro m
  induction m with
  | nil => intro k v h; simp [hasKey] at h
  | cons hd rest ih =>
    intro k v h
    obtain ⟨k1, p1⟩ := hd
    by_cases hk : k1 = k
    · subst hk
      exact ⟨[], p1, rest, by simp, by simp, by simp [appendVersionAt]⟩
    · have h2 : hasKey rest k = true := by
        simp [hasKey] at h ⊢
        rcases h with h | h
        · exact absurd h hk
        · exact h
      obtain ⟨l1, p, l2, hm, hl1, happ⟩ := ih k v h2
      refine ⟨(k1, p1) :: l1, p, l2, by simp [hm], ?_, ?_⟩
      · intro q hq
        rcases List.mem_cons.mp hq with rfl | hq
        · exact hk
        · exact hl1 q hq
      · simp [appendVersionAt, hk, happ]

/-- Claim C7: merging one `(dependency name, version)` pair extracted from
the manifest: when the name is not a key of the resolved mapping, the pair
is skipped and the mapping and both emitted outputs are unchanged;
otherwise the version is appended to that entry's `target_versions` and
nothing else in the mapping changes. -/
theorem merge_fixed_version_spec (m : List (String × RosdepResolvedPackageInfo))
    (k v : String) :
    (hasKey m k = false → mergeFixedVersion m k v = m ∧
      output_apt (mergeFixedVersion m k v) = output_apt m ∧
      output_pip (mergeFixedVersion m k v) = output_pip m) ∧
    (hasKey m k = true → ∃ l1 p l2, m = l1 ++ (k, p) :: l2 ∧ (∀ q ∈ l1, q.1 ≠ k) ∧
      mergeFixedVersion m k v =
        l1 ++ (k, { p with target_versions := p.target_versions ++ [v] }) :: l2) := by
  constructor
  · intro h
    have heq : mergeFixedVersion m k v = m := by simp [mergeFixedVersion, h]
    exact ⟨heq, by rw [heq], by rw [heq]⟩
  · intro h
    obtain ⟨l1, p, l2, hm, hl1, happ⟩ := appendVersionAt_decomp m k v h
    exact ⟨l1, p, l2, hm, hl1, by simp [mergeFixedVersion, h, happ]⟩

theorem merge_fixed_version_spec_witness :
    mergeFixedVersion [("a", (⟨"a", "apt", ["x"], []⟩ : RosdepResolvedPackageInfo))] "z" "1" =
      [("a", ⟨"a", "apt", ["x"], []⟩)] ∧
    ∃ l1 p l2,
      [("a", (⟨"a", "apt", ["x"], []⟩ : RosdepResolvedPackageInfo))] = l1 ++ ("a", p) :: l2 ∧
      (∀ q ∈ l1, q.1 ≠ "a") ∧
      mergeFixedVersion [("a", (⟨"a", "apt", ["x"], []⟩ : RosdepResolvedPackageInfo))] "a" "1" =
        l1 ++ ("a", { p with target_versions := p.target_versions ++ ["1"] }) :: l2 :=
  ⟨((merge_fixed_version_spec [("a", ⟨"a", "apt", ["x"], []⟩)] "z" "1").1 (by decide)).1,
   (merge_fixed_version_spec [("a", ⟨"a", "apt", ["x"], []⟩)] "a" "1").2 (by decide)⟩

theorem extractFromDeps_append (path : String) (l1 l2 : List XmlDep) :
    ∀ acc, extractFromDeps path (l1 ++ l2) acc =
      match extractFromDeps path l1 acc with
      | .error e => .error e
      | .ok acc2 => extractFromDeps path l2 acc2 := by
  induction l1 with
  | nil => intro acc; rfl
  | cons d rest ih =>
    intro acc
    rw [List.cons_append, extractFromDeps, extractFromDeps]
    cases List.lookup "version_eq" d.attrib with
    | none => exact ih acc
    | some v =>
      cases List.lookup d.text acc with
      | some vOld => rfl
      | none => exact ih (acc ++ [(d.text, v)])

/-- Claim C6: when an element carrying the supported exact-version
attribute names a dependency that already received a fixed version earlier
in the same scan, extraction fails with the duplicate error whose message
carries both the previously recorded and the new version value. -/
theorem extract_duplicate_version_fatal (path : String) (l1 l2 : List XmlDep)
    (d : XmlDep) (v vOld : String) (acc : List (String × String))
    (hv : List.lookup "version_eq" d.attrib = some v)
    (h1 : extractFromDeps path l1 [] = .ok acc)
    (hOld : List.lookup d.text acc = some vOld) :
    extract_fixed_version_depend_from_package_xml path (l1 ++ d :: l2) =
      .error ("ERROR: Duplicated dependency version found (" ++ vOld ++ " and "
        ++ v ++ "): " ++ d.text ++ " in package " ++ path) := by
  unfold extract_fixed_version_depend_from_package_xml
  rw [extractFromDeps_append path l1 (d :: l2) [], h1]
  show extractFromDeps path (d :: l2) acc = _
  rw [extractFromDeps, hv, hOld]

theorem extract_duplicate_version_fatal_witness :
    extract_fixed_version_depend_from_package_xml "pkg"
      [⟨"foo", [("version_eq", "1.0")]⟩, ⟨"foo", [("version_eq", "2.0")]⟩] =
      .error "ERROR: Duplicated dependency version found (1.0 and 2.0): foo in package pkg" :=
  extract_duplicate_version_fatal "pkg" [⟨"foo", [("version_eq", "1.0")]⟩] []
    ⟨"foo", [("version_eq", "2.0")]⟩ "2.0" "1.0" [("foo", "1.0")] rfl rfl rfl

/-- Claim C8: evaluation at the failing input.  The raw option value is
validated against the choices set during option parsing, before the
post-parse split ever runs, so the space-separated multi-token value
`"build exec"` is rejected as an invalid choice even though both of its
tokens are allowed, while the same tokens passed as separate values are
accepted. -/
theorem dependency_types_multi_token_rejected :
    parseDependencyTypesOption ["build exec"] =
      .error "option --dependency-types: invalid choice: build exec" ∧
    parseDependencyTypesOption ["build", "exec"] = .ok ["build", "exec"] :=
  ⟨rfl, rfl⟩

end Rosdep
